import Mathlib

/-!
# Verification of the schedule viewer core (`inoe`)

Shallow embedding of the schedule data model, the grid sweep-line layout
engine and the selection state machine, together with proofs about them.

Modelling conventions:
* `DateTime` (`time::OffsetDateTime`) is modelled as `Int` (seconds since an
  arbitrary epoch); `Duration` as `Int` (seconds).  Only ordering and addition
  of timestamps matter to the code under verification.
* `Uuid`-based identifiers are modelled as `Nat`.
* `HashMap` fields are modelled as association lists where an insert prepends
  (lookup by `find?` sees the most recent insert, matching
  `HashMap::insert`'s overwrite semantics; the maps are only ever used through
  lookups).
* `BTreeMap` fields are modelled as association lists sorted strictly
  ascending by key; iteration order of a `BTreeMap` is ascending key order.
* A Rust panic (`expect`, `todo!`, `unreachable!`, arithmetic underflow) is
  modelled by returning `none` from the enclosing operation.
* Display-only string fields that no verified operation inspects
  (subtitle, abstract, description, room, track, type, language, url,
  feedback url, links) are elided from the records.
-/

namespace Inoe

/-- `schedule::Event` (src/state/schedule/mod.rs).  `start`/`duration` in
seconds, identifiers as `Nat`; display-only fields elided except `title`. -/
structure Event where
  id : Nat
  start : Int
  duration : Int
  title : String
  persons : List Nat
deriving DecidableEq, Repr

/-- `Event::end`: `self.start + self.duration`. -/
def Event.«end» (e : Event) : Int :=
  e.start + e.duration

/-- `schedule::Person`. -/
structure Person where
  id : Nat
  name : String
deriving DecidableEq, Repr

/-- `schedule::Schedule`: event and person maps plus the time map
(`BTreeMap<DateTime, Vec<EventId>>`, kept sorted strictly ascending by key
whenever it stems from an actual `BTreeMap`). -/
structure Schedule where
  events : List (Nat × Event)
  persons : List (Nat × Person)
  time_map : List (Int × List Nat)
deriving DecidableEq, Repr

/-- `self.events.get(id)` — the lookup behind `Index<&EventId> for Schedule`.
`none` corresponds to the `expect` panic of the `Index` impl. -/
def Schedule.getEvent (s : Schedule) (id : Nat) : Option Event :=
  (s.events.find? (fun p => p.1 == id)).map (fun p => p.2)

/-- `Schedule::first`.  The outer `Option` layer models panics: `none` means
one of the two `expect`s fired; `some none` is Rust's `None` (empty schedule);
`some (some e)` is Rust's `Some(e)`. -/
def Schedule.first (s : Schedule) : Option (Option Event) :=
  match s.time_map.head? with
  | none => some none
  | some (_, ids) =>
    match ids.head? with
    | none => none
    | some id =>
      match s.getEvent id with
      | none => none
      | some ev => some (some ev)

/-- `Schedule::relative`.  `range(..to).rev()` and `range(to..)` over the
sorted time map are modelled by `filter`; `Iterator::nth n` returns the
element at (0-based) index `n`, i.e. `List.get?`. -/
def Schedule.relative (s : Schedule) (n : Int) (to' : Int) :
    Option (Int × List Nat) :=
  if n < 0 then
    ((s.time_map.filter (fun p => decide (p.1 < to'))).reverse).get? n.natAbs
  else if 0 < n then
    (s.time_map.filter (fun p => decide (to' ≤ p.1))).get? n.natAbs
  else
    s.time_map.find? (fun p => p.1 == to')

/-! ## Grid layout engine (src/ui/grid.rs) -/

/-- `const COLUMNS: usize = 7`. -/
def COLUMNS : Nat := 7

/-- `SlottedVec<T, N>` is modelled as a `List (Option T)` of length `N`.
`SlottedVec::retain`: removes each present element on which the predicate
returns `false`, keeping positions. -/
def SlottedVec.retain (pred : α → Bool) (slots : List (Option α)) :
    List (Option α) :=
  slots.map (fun slot =>
    match slot with
    | none => none
    | some item => if pred item then some item else none)

/-- `Extend for SlottedVec`: walk the slots from the start; every already
occupied slot is kept; every empty slot pulls the next element from the
iterator; when the iterator is exhausted the remaining slots are left as they
are (the Rust code returns early). -/
def SlottedVec.extend : List (Option α) → List α → List (Option α)
  | [], _ => []
  | some x :: rest, items => some x :: SlottedVec.extend rest items
  | none :: rest, [] => none :: rest
  | none :: rest, item :: items => some item :: SlottedVec.extend rest items

/-- The call site in `ScheduleGrid::new` extends the active-events vector with
`just_starting.into_iter().map(|event| { let event = &base[event]; (event.id,
event.end()) })`.  The mapping closure runs lazily, exactly when an empty slot
pulls the next element, and `&base[event]` panics (modelled as `none`) when
the id does not resolve. -/
def extendActive (s : Schedule) :
    List (Option (Nat × Int)) → List Nat → Option (List (Option (Nat × Int)))
  | [], _ => some []
  | some x :: rest, ids =>
    (extendActive s rest ids).map (fun r => some x :: r)
  | none :: rest, [] => some (none :: rest)
  | none :: rest, id :: ids =>
    match s.getEvent id with
    | none => none
    | some ev =>
      (extendActive s rest ids).map (fun r => some (ev.id, ev.«end») :: r)

/-- The loop body of `ScheduleGrid::new`, iterating over the time map in
ascending key order.  At each entry: cull inactive events
(`retain (|(_, end)| &*end > now)`), insert the newly starting ones, then
record a snapshot of the slot array's event ids.  Since the `BTreeMap` keys
arrive strictly ascending, `timeline.insert(*now, …)` appends a fresh row. -/
def ScheduleGrid.go (s : Schedule) (active : List (Option (Nat × Int))) :
    List (Int × List Nat) → Option (List (Int × List (Option Nat)))
  | [] => some []
  | (now, just_starting) :: rest =>
    let culled := SlottedVec.retain (fun p => decide (now < p.2)) active
    (extendActive s culled just_starting).bind
      (fun active' =>
        (ScheduleGrid.go s active' rest).map
          (fun tl => (now, active'.map (Option.map Prod.fst)) :: tl))

/-- `ScheduleGrid::new`: the sweep starts from an all-empty slot array of
width `COLUMNS` and visits the whole time map.  `none` models a panic inside
the sweep (an id of the time map that the event map cannot resolve). -/
def ScheduleGrid.new (s : Schedule) :
    Option (List (Int × List (Option Nat))) :=
  ScheduleGrid.go s (List.replicate COLUMNS none) s.time_map

/-! ### Specification-side grid (for the refinement claim C1)

The following `spec…` definitions are written from the specification's words
("at each timestamp `T` in order: first evict any slot whose stored
`end-time <= T`; then, in the insertion order of `T`'s newly-starting events,
fill the first available empty slot (lowest index) with `(event,
event.end())`; if no slot is available the event is silently dropped; record
a snapshot"), to be compared against the implementation above. -/

/-- Spec: evict any slot whose stored end-time `<= T`. -/
def specEvict (now : Int) (slots : List (Option (Nat × Int))) :
    List (Option (Nat × Int)) :=
  slots.map (fun slot =>
    match slot with
    | none => none
    | some (e, en) => if en ≤ now then none else some (e, en))

/-- Spec: place one event into the first (lowest-index) empty slot; if every
slot is occupied the event is dropped. -/
def specInsertFirstEmpty (slots : List (Option α)) (item : α) :
    List (Option α) :=
  match slots with
  | [] => []
  | none :: rest => some item :: rest
  | some x :: rest => some x :: specInsertFirstEmpty rest item

/-- Spec: place the newly starting events one after the other, in insertion
order. -/
def specFill (slots : List (Option α)) (items : List α) : List (Option α) :=
  items.foldl specInsertFirstEmpty slots

/-- Spec: resolve each newly-starting event id to its `(event, event.end())`
pair (`none` when an id does not resolve). -/
def resolveItems (s : Schedule) : List Nat → Option (List (Nat × Int))
  | [] => some []
  | id :: ids =>
    match s.getEvent id with
    | none => none
    | some ev =>
      (resolveItems s ids).map (fun items => (ev.id, ev.«end») :: items)

/-- Spec-side sweep: evict, resolve the newly starting events to
`(id, end)` pairs, first-fit place them, snapshot. -/
def specSweepGo (s : Schedule) (slots : List (Option (Nat × Int))) :
    List (Int × List Nat) → Option (List (Int × List (Option Nat)))
  | [] => some []
  | (now, starting) :: rest =>
    match resolveItems s starting with
    | none => none
    | some items =>
      let slots' := specFill (specEvict now slots) items
      (specSweepGo s slots' rest).map
        (fun tl => (now, slots'.map (Option.map Prod.fst)) :: tl)

/-- Spec-side grid construction over the whole time map. -/
def specSweep (s : Schedule) : Option (List (Int × List (Option Nat))) :=
  specSweepGo s (List.replicate COLUMNS none) s.time_map

/-- The end time the grid logic associates with event id `e` of schedule `s`
(`0` when the id does not resolve; all uses are guarded by resolvability). -/
def endOf (s : Schedule) (id : Nat) : Int :=
  match s.getEvent id with
  | none => 0
  | some ev => ev.«end»

/-! ## Selection / view state machine (src/lib.rs, src/state/store.rs) -/

/-- `state::store::Mode`. -/
inductive Mode where
  | Grid
  | Single
deriving DecidableEq, Repr

/-- `To` (src/lib.rs). -/
inductive To where
  | Left
  | Right
  | Up
  | Below
deriving DecidableEq, Repr

/-- `VerticalDirection` (src/lib.rs). -/
inductive VerticalDirection where
  | Down
  | Up
deriving DecidableEq, Repr

/-- `Action` (src/lib.rs). -/
inductive Action where
  | Exit
  | Select (dir : To)
  | SwitchTo (mode : Mode)
  | Scroll (dir : VerticalDirection)
deriving DecidableEq, Repr

/-- `ratatui::layout::Direction` as used by `State::scroll`. -/
inductive Direction where
  | Horizontal
  | Vertical
deriving DecidableEq, Repr

/-- `schedule::TimeCoord`. -/
structure TimeCoord where
  row : Int
  idx : Nat
deriving DecidableEq, Repr

/-- `store::GridState` (`scroll_at: DateTime`). -/
structure GridState where
  scroll_at : Int
deriving DecidableEq, Repr

/-- `store::SingleState` (`scroll_at: u16`; the value is kept in `0..=65535`).
-/
structure SingleState where
  scroll_at : Nat
deriving DecidableEq, Repr

/-- `store::State`. -/
structure State where
  schedule : Schedule
  mode : Mode
  selection : TimeCoord
  grid_state : GridState
  single_state : SingleState
deriving DecidableEq, Repr

/-- `Update for GridState`: every action falls into the catch-all arm and is
ignored. -/
def GridState.update (gs : GridState) (_action : Action) : GridState :=
  gs

/-- `Update for SingleState`: `Scroll(Down)` saturating-adds one (`u16`
saturates at `65535`), `Scroll(Up)` saturating-subtracts one, everything else
is ignored. -/
def SingleState.update (ss : SingleState) (action : Action) : SingleState :=
  match action with
  | .Scroll .Down => ⟨min (ss.scroll_at + 1) 65535⟩
  | .Scroll .Up => ⟨ss.scroll_at - 1⟩
  | _ => ss

/-- `State::scroll`.  `none` models a panic: the `expect` on the selected
row, the `todo!()` for `Direction::Vertical`, the `unreachable!()` for a zero
`row_diff`, and the `usize` underflow of `target_events.len() - 1` on an
empty target row. -/
def State.scroll (st : State) (direction : Direction) (amount : Int) :
    Option State :=
  if amount == 0 then
    some st
  else
    match st.schedule.time_map.find? (fun p => p.1 == st.selection.row) with
    | none => none
    | some (_, current_line) =>
      match direction with
      | .Horizontal =>
        let new_idx : Int := (st.selection.idx : Int) + amount
        if 0 ≤ new_idx ∧ new_idx < (current_line.length : Int) then
          some { st with selection := { st.selection with idx := new_idx.toNat } }
        else
          let row_diff := new_idx.sign
          match st.schedule.relative row_diff st.selection.row with
          | none => some st
          | some (target_row, target_events) =>
            if row_diff == 1 then
              some { st with selection := ⟨target_row, 0⟩ }
            else if row_diff == -1 then
              match target_events.length with
              | 0 => none
              | Nat.succ m => some { st with selection := ⟨target_row, m⟩ }
            else
              none
      | .Vertical => none

/-- `Update for State`: `Scroll` is routed to the active mode's state only,
`SwitchTo` replaces the mode, `Select` turns into a horizontal or vertical
`scroll` by one, and every other action (`Exit`) is forwarded to both
mode-local states. -/
def State.update (st : State) (action : Action) : Option State :=
  match action with
  | .Scroll _ =>
    match st.mode with
    | .Grid => some { st with grid_state := st.grid_state.update action }
    | .Single => some { st with single_state := st.single_state.update action }
  | .SwitchTo new_mode => some { st with mode := new_mode }
  | .Select dir =>
    match dir with
    | .Left => st.scroll .Horizontal (-1)
    | .Right => st.scroll .Horizontal 1
    | .Up => st.scroll .Vertical (-1)
    | .Below => st.scroll .Vertical 1
  | .Exit =>
    some { st with
      grid_state := st.grid_state.update action,
      single_state := st.single_state.update action }

/-- A finite sequence of dispatched actions; `none` once any dispatch
panics. -/
def State.updateSeq (st : State) : List Action → Option State
  | [] => some st
  | a :: rest => (st.update a).bind (fun st' => st'.updateSeq rest)

/-! ## Import model (src/state/schedule/model.rs) and conversion
(src/state/schedule/convert.rs) -/

namespace model

/-- `model::Person` (`guid` as `Nat`). -/
structure Person where
  guid : Nat
  name : String
deriving DecidableEq, Repr

/-- `time::Time` as consumed by `time_to_duration` via `as_hms`. -/
structure Time where
  hour : Nat
  minute : Nat
  second : Nat
deriving DecidableEq, Repr

/-- `model::Event`; display-only string fields other than `title` elided. -/
structure Event where
  guid : Nat
  date : Int
  duration : Time
  title : String
  persons : List Person
deriving DecidableEq, Repr

/-- `model::Room` (only its event list matters to the conversion). -/
structure Room where
  guid : Nat
  name : String
  events : List Event
deriving DecidableEq, Repr

/-- `model::Day`. -/
structure Day where
  rooms : List Room
deriving DecidableEq, Repr

/-- `model::Schedule` (conference metadata elided; the conversion only reads
`days`). -/
structure Schedule where
  days : List Day
deriving DecidableEq, Repr

end model

/-- `convert::time_to_duration`: hours/minutes/seconds to a second count. -/
def time_to_duration (t : model.Time) : Int :=
  (t.hour : Int) * 60 * 60 + (t.minute : Int) * 60 + (t.second : Int)

/-- `convert::realize_person`. -/
def realize_person (p : model.Person) : Person :=
  { id := p.guid, name := p.name }

/-- `convert::realize_event`: the realized event plus the realized persons. -/
def realize_event (m : model.Event) : Event × List Person :=
  let persons := m.persons.map realize_person
  ({ id := m.guid
     start := m.date
     duration := time_to_duration m.duration
     title := m.title
     persons := persons.map (fun p => p.id) }, persons)

/-- `BTreeMap::entry(start).or_default().push(id)` on the sorted time map:
insert the key at its ordered position if absent, and append the id to the
key's list. -/
def timeMapPush (tm : List (Int × List Nat)) (k : Int) (id : Nat) :
    List (Int × List Nat) :=
  match tm with
  | [] => [(k, [id])]
  | (k', ids) :: rest =>
    if k < k' then (k, [id]) :: (k', ids) :: rest
    else if k == k' then (k', ids ++ [id]) :: rest
    else (k', ids) :: timeMapPush rest k id

/-- The flattened event stream the conversion walks:
`model.days.into_iter().flat_map(|day| day.rooms).flat_map(|room|
room.events)`. -/
def model.Schedule.allEvents (m : model.Schedule) : List model.Event :=
  (m.days.flatMap (fun day => day.rooms)).flatMap (fun room => room.events)

/-- The loop body of `From<model::Schedule> for Schedule`: push the event's
id onto the time map at its start, insert it into the event map, and extend
the person map. -/
def convStep (sch : Schedule) (mev : model.Event) : Schedule :=
  let (event, persons) := realize_event mev
  { sch with
    time_map := timeMapPush sch.time_map event.start event.id
    events := (event.id, event) :: sch.events
    persons := persons.foldl (fun ps p => (p.id, p) :: ps) sch.persons }

/-- `From<model::Schedule> for Schedule`: fold the loop body over the
flattened event stream, starting from the `Default` (empty) schedule. -/
def Schedule.fromModel (m : model.Schedule) : Schedule :=
  m.allEvents.foldl convStep { events := [], persons := [], time_map := [] }

/-- The realized (converted) events, in conversion order. -/
def realizedEvents (m : model.Schedule) : List Event :=
  m.allEvents.map (fun mev => (realize_event mev).1)

/-- The value list a time map stores under key `t` (empty when the key is
absent). -/
def valueAt (tm : List (Int × List Nat)) (t : Int) : List Nat :=
  match tm.find? (fun p => p.1 == t) with
  | none => []
  | some p => p.2

/-- The conversion's time-map pushes, folded over a list of realized
events. -/
def tmFold (evs : List Event) (tm : List (Int × List Nat)) :
    List (Int × List Nat) :=
  evs.foldl (fun tm ev => timeMapPush tm ev.start ev.id) tm

/-- Keys of a time map are strictly ascending (`BTreeMap` iteration
order). -/
def tmSorted (tm : List (Int × List Nat)) : Prop :=
  List.Pairwise (fun a b => a.1 < b.1) tm

/-- `State::new`, taken from the point where the import source has been
decoded into a `model::Schedule` (the XML file reading and parsing are the
excluded adapter).  The outer `Option` layer models panics (none occur for
converted schedules); `Except.error` is the described construction failure
(`eyre` context "schedule is empty, nothing to display"). -/
def State.new (m : model.Schedule) : Option (Except String State) :=
  let schedule := Schedule.fromModel m
  match schedule.first with
  | none => none
  | some none => some (.error "schedule is empty, nothing to display")
  | some (some first_event) =>
    some (.ok
      { schedule := schedule
        mode := .Grid
        selection := { row := first_event.start, idx := 0 }
        grid_state := { scroll_at := first_event.start }
        single_state := { scroll_at := 0 } })

/-! ## Well-formedness

Properties every `Schedule` produced by the conversion enjoys and that the
grid / navigation theorems assume: the time map is sorted strictly ascending
(it is a `BTreeMap`), every listed event id resolves to an event carrying
that id, and no id is listed twice (ids are globally unique `guid`s). -/

/-- All event ids listed in the time map, in order. -/
def Schedule.allIds (s : Schedule) : List Nat :=
  (s.time_map.map Prod.snd).flatten

/-- Every id of `ids` resolves in `s` to an event whose `id` field is that
id. -/
def idsResolve (s : Schedule) (ids : List Nat) : Prop :=
  ∀ id ∈ ids, (s.getEvent id).map Event.id = some id

instance (s : Schedule) (ids : List Nat) : Decidable (idsResolve s ids) :=
  inferInstanceAs
    (Decidable (∀ id ∈ ids, (s.getEvent id).map Event.id = some id))

/-- Well-formedness of a schedule, as established by the conversion from
the imported model. -/
def Schedule.WF (s : Schedule) : Prop :=
  List.Pairwise (fun a b => a.1 < b.1) s.time_map ∧
  idsResolve s s.allIds ∧
  s.allIds.Nodup

instance (s : Schedule) : Decidable s.WF :=
  inferInstanceAs
    (Decidable (List.Pairwise (fun (a b : Int × List Nat) => a.1 < b.1) s.time_map ∧
      idsResolve s s.allIds ∧ s.allIds.Nodup))

/-! ## Concrete fixtures used by the per-claim theorems -/

/-- A two-row schedule: event `10` at time `0`, event `11` at time `100`. -/
def C3sched : Schedule :=
  { events := [(10, ⟨10, 0, 30, "a", []⟩), (11, ⟨11, 100, 30, "b", []⟩)]
    persons := []
    time_map := [(0, [10]), (100, [11])] }

/-- Schedule for C5: two rows so that vertical movement would have a target. -/
def C5sched : Schedule :=
  { events := [(1, ⟨1, 0, 30, "a", []⟩), (2, ⟨2, 100, 30, "b", []⟩)]
    persons := []
    time_map := [(0, [1]), (100, [2])] }

/-- State for C5: grid mode, valid selection on the first row. -/
def C5state : State :=
  { schedule := C5sched
    mode := .Grid
    selection := ⟨0, 0⟩
    grid_state := ⟨0⟩
    single_state := ⟨0⟩ }

/-- Import model for C6: one day, one room, events `1` (start `0`) and `2`
(start `100`). -/
def C6model : model.Schedule :=
  ⟨[⟨[⟨7, "room", [⟨1, 0, ⟨0, 30, 0⟩, "a", []⟩, ⟨2, 100, ⟨0, 30, 0⟩, "b", []⟩]⟩]⟩]⟩

/-- The initial state `State::new` produces for `C6model`. -/
def C6state : State :=
  { schedule :=
      { events := [(2, ⟨2, 100, 1800, "b", []⟩), (1, ⟨1, 0, 1800, "a", []⟩)]
        persons := []
        time_map := [(0, [1]), (100, [2])] }
    mode := .Grid
    selection := ⟨0, 0⟩
    grid_state := ⟨0⟩
    single_state := ⟨0⟩ }

/-- State for C7's counterexample: grid mode active, single-mode offset `5`. -/
def C7state : State :=
  { schedule := { events := [], persons := [], time_map := [] }
    mode := .Grid
    selection := ⟨0, 0⟩
    grid_state := ⟨0⟩
    single_state := ⟨5⟩ }

/-- Single-mode state used to witness the amended C7 theorem. -/
def C7wstate : State :=
  { schedule := { events := [], persons := [], time_map := [] }
    mode := .Single
    selection := ⟨0, 0⟩
    grid_state := ⟨0⟩
    single_state := ⟨3⟩ }

/-- The state `Scroll(Down)` produces from `C7wstate`. -/
def C7wresult : State :=
  { C7wstate with single_state := ⟨4⟩ }

/-- Import model for C8: one room with starts `100, 50, 50` (a tie on the
minimum). -/
def C8model : model.Schedule :=
  ⟨[⟨[⟨9, "r", [⟨4, 100, ⟨0, 30, 0⟩, "a", []⟩, ⟨5, 50, ⟨0, 30, 0⟩, "b", []⟩,
               ⟨6, 50, ⟨0, 30, 0⟩, "c", []⟩]⟩]⟩]⟩

/-- Import model for C9: a single event (guid `1`, start `42`, one hour). -/
def C9model : model.Schedule :=
  ⟨[⟨[⟨8, "r", [⟨1, 42, ⟨1, 0, 0⟩, "t", []⟩]⟩]⟩]⟩

/-- Import model for C9 decoding to zero events. -/
def C9emptyModel : model.Schedule :=
  ⟨[]⟩

/-- Import model for C10's witness: one event (guid `1`, start `0`). -/
def C10model : model.Schedule :=
  ⟨[⟨[⟨3, "r", [⟨1, 0, ⟨0, 30, 0⟩, "a", []⟩]⟩]⟩]⟩

/-- Schedule for C1's witness: eight events all starting at `0`, so the
eighth finds every one of the seven columns occupied and is dropped. -/
def C1wsched : Schedule :=
  { events := [(1, ⟨1, 0, 10, "a", []⟩), (2, ⟨2, 0, 10, "b", []⟩),
               (3, ⟨3, 0, 10, "c", []⟩), (4, ⟨4, 0, 10, "d", []⟩),
               (5, ⟨5, 0, 10, "e", []⟩), (6, ⟨6, 0, 10, "f", []⟩),
               (7, ⟨7, 0, 10, "g", []⟩), (8, ⟨8, 0, 10, "h", []⟩)]
    persons := []
    time_map := [(0, [1, 2, 3, 4, 5, 6, 7, 8])] }

/-- The single grid row of `C1wsched`: seven columns, event `8` dropped. -/
def C1wrow : List (Option Nat) :=
  [some 1, some 2, some 3, some 4, some 5, some 6, some 7]

/-- The grid of `C1wsched`. -/
def C1wgrid : List (Int × List (Option Nat)) :=
  [(0, C1wrow)]

/-- Schedule for C2's counterexample: a single zero-duration event. -/
def C2sched : Schedule :=
  { events := [(1, ⟨1, 0, 0, "z", []⟩)]
    persons := []
    time_map := [(0, [1])] }

/-- Schedule for C2's witness: event `1` spans `0..20`, event `2` starts at
`10`. -/
def C2wsched : Schedule :=
  { events := [(1, ⟨1, 0, 20, "a", []⟩), (2, ⟨2, 10, 5, "b", []⟩)]
    persons := []
    time_map := [(0, [1]), (10, [2])] }

/-- First grid row of `C2wsched`. -/
def C2wrow0 : List (Option Nat) :=
  [some 1, none, none, none, none, none, none]

/-- Second grid row of `C2wsched`: event `1` keeps column `0`. -/
def C2wrow10 : List (Option Nat) :=
  [some 1, some 2, none, none, none, none, none]

/-- The grid of `C2wsched`. -/
def C2wgrid : List (Int × List (Option Nat)) :=
  [(0, C2wrow0), (10, C2wrow10)]

/-- Schedule for C4: row `0` with the single event `1`, row `10` with the two
events `2, 3`. -/
def C4sched : Schedule :=
  { events := [(1, ⟨1, 0, 5, "a", []⟩), (2, ⟨2, 10, 5, "b", []⟩),
               (3, ⟨3, 10, 5, "c", []⟩)]
    persons := []
    time_map := [(0, [1]), (10, [2, 3])] }

/-- State for C4's counterexample: selection on row `0`, column `0`. -/
def C4state : State :=
  { schedule := C4sched
    mode := .Grid
    selection := ⟨0, 0⟩
    grid_state := ⟨0⟩
    single_state := ⟨0⟩ }

/-- C3 (code bug): with time map `{0 ↦ [10], 100 ↦ [11]}`, the positive and
zero directions of `relative` behave as the claim says (`relative 1 0` is the
entry one later, `relative 0 0` is the entry itself), but `relative (-1) 100`
returns `none` although the entry one earlier, `(0, [10])`, exists:
`range(..to).rev()` already excludes `to`, so `nth(|n|)` skips the nearest
earlier entry.  The code contradicts its own doc comment ("Negative n result
in the date and events before the given date"). -/
theorem C3_relative_negative_skips_an_entry :
    Schedule.relative C3sched 1 0 = some (100, [11]) ∧
    Schedule.relative C3sched 0 0 = some (0, [10]) ∧
    Schedule.relative C3sched (-1) 100 = none ∧
    C3sched.WF := by
  refine ⟨rfl, rfl, rfl, by decide⟩

/-- C5 (code bug): from a state with a valid selection (the selected row is
present in the time map), dispatching `Select(Up)` or `Select(Below)` hits
the `todo!()` in `State::scroll` for `Direction::Vertical` (modelled as
`none`): the dispatch panics instead of moving the row and completing
normally as the claim states. -/
theorem C5_select_vertical_panics :
    (C5state.schedule.time_map.find?
      (fun p => p.1 == C5state.selection.row)).isSome = true ∧
    State.update C5state (.Select .Up) = none ∧
    State.update C5state (.Select .Below) = none := by
  refine ⟨rfl, rfl, rfl⟩

/-- C6 (code bug): starting from the initial state (earliest event's
timestamp, column 0), the one-intent sequence `[Select(Up)]` does not leave
the selection valid: it panics in the `todo!()` of `State::scroll`
(`Direction::Vertical`), modelled as `none`.  The claim's invariant (every
finite sequence of `Select` dispatches keeps the selection lookup
succeeding) is therefore broken by the code for vertical intents. -/
theorem C6_selection_invariant_broken_by_vertical_panic :
    State.new C6model = some (.ok C6state) ∧
    State.updateSeq C6state [.Select .Up] = none := by
  refine ⟨rfl, rfl⟩

/-- C7 (counterexample): with `Grid` the active mode, dispatching
`Scroll(Down)` (or `Scroll(Up)`) changes nothing at all — `Update for
GridState` ignores every action — contradicting the claim that the active
mode's scroll offset is saturating-incremented/decremented. -/
theorem C7_counterexample_grid_scroll_is_noop :
    State.update C7state (.Scroll .Down) = some C7state ∧
    State.update C7state (.Scroll .Up) = some C7state :=
  ⟨rfl, rfl⟩

/-- C7 (amended): `Scroll` is routed only to the active mode's state and
never touches the mode, the selection, the schedule, or the other mode's
offset.  In `Single` mode `Down` saturating-increments (`u16` cap `65535`)
and `Up` saturating-decrements the line offset, which therefore never goes
below zero; in `Grid` mode `Scroll` currently has no effect at all. -/
theorem C7_amended_scroll_routing (st : State) (dir : VerticalDirection) :
    (st.update (.Scroll dir)).isSome = true ∧
    ∀ st', st.update (.Scroll dir) = some st' →
      st'.mode = st.mode ∧ st'.selection = st.selection ∧
      st'.schedule = st.schedule ∧
      (st.mode = .Grid → st' = st) ∧
      (st.mode = .Single →
        st'.grid_state = st.grid_state ∧
        (dir = .Down →
          st'.single_state.scroll_at = min (st.single_state.scroll_at + 1) 65535) ∧
        (dir = .Up →
          st'.single_state.scroll_at = st.single_state.scroll_at - 1) ∧
        (dir = .Up → st.single_state.scroll_at = 0 →
          st'.single_state.scroll_at = 0)) := by
  obtain ⟨sch, mode, sel, gs, ss⟩ := st
  cases mode <;> cases dir <;>
    (simp [State.update, GridState.update, SingleState.update]; try omega)

/-- Witness for the amended C7 theorem at a concrete single-mode state. -/
theorem C7_amended_scroll_routing_witness :
    C7wresult.mode = C7wstate.mode ∧ C7wresult.selection = C7wstate.selection ∧
    C7wresult.schedule = C7wstate.schedule ∧
    (C7wstate.mode = .Grid → C7wresult = C7wstate) ∧
    (C7wstate.mode = .Single →
      C7wresult.grid_state = C7wstate.grid_state ∧
      (VerticalDirection.Down = .Down →
        C7wresult.single_state.scroll_at =
          min (C7wstate.single_state.scroll_at + 1) 65535) ∧
      (VerticalDirection.Down = .Up →
        C7wresult.single_state.scroll_at = C7wstate.single_state.scroll_at - 1) ∧
      (VerticalDirection.Down = .Up → C7wstate.single_state.scroll_at = 0 →
        C7wresult.single_state.scroll_at = 0)) :=
  (C7_amended_scroll_routing C7wstate .Down).2 C7wresult rfl

/-- C4 (counterexample): `Select(Right)` at the end of row `0` moves to row
`10`, whose occupied slots are `[2, 3]`.  The claim says the column is reset
to the *last* occupied slot for `Right` (index `1` here); the code resets it
to the *first* slot, index `0` (and symmetrically resets to the last slot for
`Left`). -/
theorem C4_counterexample_right_resets_to_first_slot :
    (State.update C4state (.Select .Right)).map (fun st => st.selection) =
      some ⟨10, 0⟩ ∧
    (State.update C4state (.Select .Right)).map (fun st => st.selection) ≠
      some ⟨10, [2, 3].length - 1⟩ := by
  exact ⟨rfl, by decide⟩

/-- C4 (amended): with the selected row present in the time map (`hrow`) and
the column index valid (`hidx`), `Select(Right)`/`Select(Left)` move the
column by `+1`/`-1` when the result stays inside the row; otherwise the
engine calls `relative (+1)`/`relative (-1)` on the current row (for `Left`
this skips the immediately preceding entry, see C3), and on success resets
the column to the *first* slot (index `0`) for `Right` and to the *last*
slot (index `len - 1`) for `Left` of the new row (panicking if that row's
list were empty, which conversion-produced schedules rule out); when
`relative` returns nothing the selection is left completely unchanged. -/
theorem C4_amended_horizontal_select (st : State) (line : List Nat)
    (hrow : st.schedule.time_map.find? (fun p => p.1 == st.selection.row) =
      some (st.selection.row, line))
    (hidx : st.selection.idx < line.length) :
    st.update (.Select .Right) =
      (if st.selection.idx + 1 < line.length then
        some { st with selection := { st.selection with idx := st.selection.idx + 1 } }
      else
        match st.schedule.relative 1 st.selection.row with
        | none => some st
        | some (r, _) => some { st with selection := ⟨r, 0⟩ }) ∧
    st.update (.Select .Left) =
      (if st.selection.idx = 0 then
        match st.schedule.relative (-1) st.selection.row with
        | none => some st
        | some (r, l) =>
          match l.length with
          | 0 => none
          | Nat.succ m => some { st with selection := ⟨r, m⟩ }
      else
        some { st with selection := { st.selection with idx := st.selection.idx - 1 } }) := by
  obtain ⟨sch, mode, ⟨row, idx⟩, gs, ss⟩ := st
  simp only at hrow hidx ⊢
  constructor
  · show State.scroll _ .Horizontal 1 = _
    unfold State.scroll
    rw [if_neg (show ¬ ((1 : Int) == 0) = true by decide)]
    simp only [hrow]
    by_cases hin : idx + 1 < line.length
    · rw [if_pos (show (0 : Int) ≤ (idx : Int) + 1 ∧
          (idx : Int) + 1 < (line.length : Int) by omega), if_pos hin]
      have ht : ((idx : Int) + 1).toNat = idx + 1 := by omega
      rw [ht]
    · rw [if_neg (show ¬ ((0 : Int) ≤ (idx : Int) + 1 ∧
          (idx : Int) + 1 < (line.length : Int)) by omega), if_neg hin]
      have hsign : ((idx : Int) + 1).sign = 1 :=
        Int.sign_eq_one_iff_pos.mpr (by omega)
      simp only [hsign]
      cases Schedule.relative sch 1 row with
      | none => rfl
      | some p => rfl
  · show State.scroll _ .Horizontal (-1) = _
    unfold State.scroll
    rw [if_neg (show ¬ ((-1 : Int) == 0) = true by decide)]
    simp only [hrow]
    by_cases h0 : idx = 0
    · subst h0
      rw [if_neg (show ¬ ((0 : Int) ≤ (0 : Nat) + (-1 : Int) ∧
          ((0 : Nat) : Int) + (-1 : Int) < (line.length : Int)) by omega),
        if_pos rfl]
      have hsign : (((0 : Nat) : Int) + (-1 : Int)).sign = -1 := by decide
      simp only [hsign]
      cases Schedule.relative sch (-1) row with
      | none => rfl
      | some p =>
        obtain ⟨r, l⟩ := p
        simp only
        cases l.length with
        | zero => rfl
        | succ m => rfl
    · rw [if_pos (show (0 : Int) ≤ (idx : Int) + (-1 : Int) ∧
          (idx : Int) + (-1 : Int) < (line.length : Int) by omega), if_neg h0]
      have ht : ((idx : Int) + (-1 : Int)).toNat = idx - 1 := by omega
      rw [ht]

/-- Witness for the amended C4 theorem at the concrete state `C4state`
(row `0`, whose event list is `[1]`, column `0`). -/
theorem C4_amended_horizontal_select_witness :
    (C4state.schedule.time_map.find?
        (fun p => p.1 == C4state.selection.row) =
      some (C4state.selection.row, [1])) ∧
    C4state.selection.idx < [1].length ∧
    ((State.update C4state (.Select .Right) =
      (if C4state.selection.idx + 1 < [1].length then
        some { C4state with selection :=
          { C4state.selection with idx := C4state.selection.idx + 1 } }
      else
        match C4state.schedule.relative 1 C4state.selection.row with
        | none => some C4state
        | some (r, _) => some { C4state with selection := ⟨r, 0⟩ })) ∧
    (State.update C4state (.Select .Left) =
      (if C4state.selection.idx = 0 then
        match C4state.schedule.relative (-1) C4state.selection.row with
        | none => some C4state
        | some (r, l) =>
          match l.length with
          | 0 => none
          | Nat.succ m => some { C4state with selection := ⟨r, m⟩ }
      else
        some { C4state with selection :=
          { C4state.selection with idx := C4state.selection.idx - 1 } }))) :=
  ⟨rfl, by decide, C4_amended_horizontal_select C4state [1] rfl (by decide)⟩

/-! ## Generic list lemmas -/

/-- The head of a filtered list is the first element satisfying the
predicate. -/
theorem head?_filter_eq_find? (p : α → Bool) (l : List α) :
    (l.filter p).head? = l.find? p := by
  induction l with
  | nil => rfl
  | cons a l ih => cases h : p a <;> simp [List.filter_cons, h, ih]

/-- `find?` only depends on the predicate's values on the list's members. -/
theorem find?_congr_mem {p q : α → Bool} (l : List α)
    (h : ∀ x ∈ l, p x = q x) : l.find? p = l.find? q := by
  induction l with
  | nil => rfl
  | cons a l ih =>
    have ha := h a (List.mem_cons_self a l)
    cases hq : q a
    · rw [List.find?_cons, List.find?_cons, ha, hq]
      exact ih (fun x hx => h x (List.mem_cons_of_mem a hx))
    · rw [List.find?_cons, List.find?_cons, ha, hq]

/-- In an association list with distinct keys, `find?` by key returns the
unique entry with that key. -/
theorem find?_assoc_of_nodup {β : Type} {l : List (Nat × β)}
    (h : (l.map Prod.fst).Nodup) {x : Nat × β} (hx : x ∈ l) :
    l.find? (fun p => p.1 == x.1) = some x := by
  induction l with
  | nil => cases hx
  | cons a l ih =>
    rcases List.mem_cons.mp hx with rfl | hx'
    · simp [List.find?_cons]
    · have hanot : a.1 ∉ l.map Prod.fst := (List.nodup_cons.mp h).1
      have hne : (a.1 == x.1) = false := by
        simp only [beq_eq_false_iff_ne, ne_eq]
        intro he
        exact hanot (he ▸ List.mem_map_of_mem Prod.fst hx')
      rw [List.find?_cons, hne]
      exact ih (List.nodup_cons.mp h).2 hx'

/-- A `find?` over a list that keeps some entry satisfying `pr` also keeps
it after consing. -/
theorem find?_isSome_cons {β : Type} {l : List (Nat × β)}
    {pr : Nat × β → Bool} (a : Nat × β)
    (h : (l.find? pr).isSome = true) : ((a :: l).find? pr).isSome = true := by
  cases hpa : pr a <;> simp [List.find?_cons, hpa, h]

/-! ## Lemmas about `timeMapPush` and `tmFold` -/

/-- Every entry of a pushed time map carries the pushed key or an existing
key. -/
theorem timeMapPush_keys {tm : List (Int × List Nat)} {k : Int} {id : Nat}
    {p : Int × List Nat} (hp : p ∈ timeMapPush tm k id) :
    p.1 = k ∨ p.1 ∈ tm.map Prod.fst := by
  induction tm with
  | nil =>
    simp [timeMapPush] at hp
    simp [hp]
  | cons hd rest ih =>
    obtain ⟨k', ids⟩ := hd
    simp only [timeMapPush] at hp
    by_cases h1 : k < k'
    · rw [if_pos h1] at hp
      rcases List.mem_cons.mp hp with rfl | hp'
      · exact Or.inl rfl
      · exact Or.inr (List.mem_map_of_mem Prod.fst hp')
    · rw [if_neg h1] at hp
      by_cases h2 : (k == k') = true
      · rw [if_pos h2] at hp
        rcases List.mem_cons.mp hp with rfl | hp'
        · exact Or.inr (by simp)
        · exact Or.inr (by simp [List.mem_map_of_mem Prod.fst hp'])
      · rw [if_neg h2] at hp
        rcases List.mem_cons.mp hp with rfl | hp'
        · exact Or.inr (by simp)
        · rcases ih hp' with h | h
          · exact Or.inl h
          · exact Or.inr (by simp [h])

/-- Membership in a pushed time map: an old entry survives untouched, or the
entry is at the pushed key with the id appended (or fresh). -/
theorem timeMapPush_mem {tm : List (Int × List Nat)} {k : Int} {id : Nat}
    {p : Int × List Nat} (hp : p ∈ timeMapPush tm k id) :
    p ∈ tm ∨
      (p.2 = [id] ∨ ∃ ids₀, (p.1, ids₀) ∈ tm ∧ p.2 = ids₀ ++ [id]) := by
  induction tm with
  | nil =>
    simp [timeMapPush] at hp
    simp [hp]
  | cons hd rest ih =>
    obtain ⟨k', ids⟩ := hd
    simp only [timeMapPush] at hp
    by_cases h1 : k < k'
    · rw [if_pos h1] at hp
      rcases List.mem_cons.mp hp with rfl | hp'
      · exact Or.inr (Or.inl rfl)
      · exact Or.inl hp'
    · rw [if_neg h1] at hp
      by_cases h2 : (k == k') = true
      · rw [if_pos h2] at hp
        rcases List.mem_cons.mp hp with rfl | hp'
        · exact Or.inr (Or.inr ⟨ids, List.mem_cons_self _ _, rfl⟩)
        · exact Or.inl (List.mem_cons_of_mem _ hp')
      · rw [if_neg h2] at hp
        rcases List.mem_cons.mp hp with rfl | hp'
        · exact Or.inl (List.mem_cons_self _ _)
        · rcases ih hp' with h | h | ⟨ids₀, hmem, hq⟩
          · exact Or.inl (List.mem_cons_of_mem _ h)
          · exact Or.inr (Or.inl h)
          · exact Or.inr (Or.inr ⟨ids₀, List.mem_cons_of_mem _ hmem, hq⟩)

/-- Pushing preserves sortedness of the time map. -/
theorem timeMapPush_sorted {tm : List (Int × List Nat)} {k : Int} {id : Nat}
    (h : tmSorted tm) : tmSorted (timeMapPush tm k id) := by
  induction tm with
  | nil => simp [timeMapPush, tmSorted]
  | cons hd rest ih =>
    obtain ⟨k', ids⟩ := hd
    have hhd := (List.pairwise_cons.mp h).1
    have hrest := (List.pairwise_cons.mp h).2
    simp only [timeMapPush]
    by_cases h1 : k < k'
    · rw [if_pos h1]
      refine List.pairwise_cons.mpr ⟨?_, h⟩
      intro b hb
      rcases List.mem_cons.mp hb with rfl | hb'
      · exact h1
      · exact lt_trans h1 (hhd b hb')
    · rw [if_neg h1]
      by_cases h2 : (k == k') = true
      · rw [if_pos h2]
        exact List.pairwise_cons.mpr ⟨hhd, hrest⟩
      · rw [if_neg h2]
        have hk'k : k' < k := by
          rcases lt_trichotomy k k' with h | h | h
          · exact absurd h h1
          · exact absurd (by simpa using h) h2
          · exact h
        refine List.pairwise_cons.mpr ⟨?_, ih hrest⟩
        intro b hb
        rcases timeMapPush_keys hb with hbk | hbk
        · exact hbk ▸ hk'k
        · rcases List.mem_map.mp hbk with ⟨q, hq, hq1⟩
          exact hq1 ▸ hhd q hq

/-- The value stored under `t` after a push. -/
theorem timeMapPush_valueAt {tm : List (Int × List Nat)} {k : Int} {id : Nat}
    (h : tmSorted tm) (t : Int) :
    valueAt (timeMapPush tm k id) t =
      if t = k then valueAt tm t ++ [id] else valueAt tm t := by
  induction tm with
  | nil =>
    by_cases ht : t = k
    · subst ht
      simp [timeMapPush, valueAt, List.find?_cons]
    · simp [timeMapPush, valueAt, List.find?_cons,
        show (k == t) = false by simpa using fun he => ht he.symm, ht]
  | cons hd rest ih =>
    obtain ⟨k', ids⟩ := hd
    have hhd := (List.pairwise_cons.mp h).1
    have hrest := (List.pairwise_cons.mp h).2
    simp only [timeMapPush]
    by_cases h1 : k < k'
    · rw [if_pos h1]
      by_cases ht : t = k
      · subst ht
        have htm : ((k', ids) :: rest).find? (fun p => p.1 == t) = none := by
          apply List.find?_eq_none.mpr
          intro p hp
          have : t < p.1 := by
            rcases List.mem_cons.mp hp with rfl | hp'
            · exact h1
            · exact lt_trans h1 (hhd p hp')
          simp only [beq_eq_false_iff_ne, ne_eq, Bool.not_eq_true]
          simpa using fun he => absurd (he ▸ this) (lt_irrefl _)
        simp [valueAt, List.find?_cons, htm]
      · have hne : (k == t) = false := by
          simpa using fun he => ht he.symm
        simp [valueAt, List.find?_cons, hne, ht]
    · rw [if_neg h1]
      by_cases h2 : (k == k') = true
      · rw [if_pos h2]
        have hkk' : k = k' := by simpa using h2
        subst hkk'
        by_cases ht : t = k
        · subst ht
          simp [valueAt, List.find?_cons]
        · have hne : (k == t) = false := by
            simpa using fun he => ht he.symm
          simp [valueAt, List.find?_cons, hne, ht]
      · rw [if_neg h2]
        by_cases ht' : t = k'
        · subst ht'
          have htk : ¬ t = k := fun he => h2 (by simpa using he.symm)
          simp [valueAt, List.find?_cons, htk]
        · have hne : (k' == t) = false := by
            simpa using fun he => ht' he.symm
          have := ih hrest
          simp only [valueAt, List.find?_cons, hne] at this ⊢
          exact this

/-- Folding pushes preserves sortedness. -/
theorem tmFold_sorted (evs : List Event) {tm : List (Int × List Nat)}
    (h : tmSorted tm) : tmSorted (tmFold evs tm) := by
  induction evs generalizing tm with
  | nil => exact h
  | cons ev evs ih => exact ih (timeMapPush_sorted h)

/-- The value stored under `t` after folding all pushes: the old value
followed by the ids of the events starting at `t`, in order. -/
theorem tmFold_valueAt (evs : List Event) {tm : List (Int × List Nat)}
    (h : tmSorted tm) (t : Int) :
    valueAt (tmFold evs tm) t =
      valueAt tm t ++ (evs.filter (fun ev => ev.start == t)).map Event.id := by
  induction evs generalizing tm with
  | nil => simp [tmFold]
  | cons ev evs ih =>
    have hstep : tmFold (ev :: evs) tm = tmFold evs (timeMapPush tm ev.start ev.id) := rfl
    rw [hstep, ih (timeMapPush_sorted h), timeMapPush_valueAt h]
    by_cases ht : t = ev.start
    · subst ht
      simp [List.filter_cons]
    · have : (ev.start == t) = false := by
        simpa using fun he => ht he.symm
      simp [List.filter_cons, this, ht]

/-- The pushed key and all existing keys are keys of the pushed map. -/
theorem timeMapPush_keys_superset {tm : List (Int × List Nat)} {k : Int}
    {id : Nat} {t : Int} (h : t = k ∨ t ∈ tm.map Prod.fst) :
    t ∈ (timeMapPush tm k id).map Prod.fst := by
  induction tm with
  | nil =>
    rcases h with rfl | h
    · simp [timeMapPush]
    · simp at h
  | cons hd rest ih =>
    obtain ⟨k', ids⟩ := hd
    simp only [timeMapPush]
    by_cases h1 : k < k'
    · rw [if_pos h1]
      rcases h with rfl | h
      · simp
      · simp only [List.map_cons, List.mem_cons] at h ⊢
        exact Or.inr h
    · by_cases h2 : (k == k') = true
      · rw [if_neg h1, if_pos h2]
        have hk : k = k' := by simpa using h2
        rcases h with rfl | h
        · simp [hk]
        · simpa using (by simpa using h : t = k' ∨ t ∈ rest.map Prod.fst)
      · rw [if_neg h1, if_neg h2]
        rcases h with rfl | h
        · simp only [List.map_cons, List.mem_cons]
          exact Or.inr (ih (Or.inl rfl))
        · simp only [List.map_cons, List.mem_cons] at h
          rcases h with h | h
          · simp [h]
          · simp only [List.map_cons, List.mem_cons]
            exact Or.inr (ih (Or.inr h))

/-- Keys after folding: old keys plus the start times of the folded
events. -/
theorem tmFold_keys (evs : List Event) (tm : List (Int × List Nat)) (t : Int) :
    t ∈ (tmFold evs tm).map Prod.fst ↔
      t ∈ tm.map Prod.fst ∨ t ∈ evs.map Event.start := by
  induction evs generalizing tm with
  | nil => simp [tmFold]
  | cons ev evs ih =>
    have hstep : tmFold (ev :: evs) tm = tmFold evs (timeMapPush tm ev.start ev.id) := rfl
    rw [hstep, ih]
    constructor
    · rintro (hk | hk)
      · rcases List.mem_map.mp hk with ⟨p, hp, rfl⟩
        rcases timeMapPush_keys hp with h | h
        · exact Or.inr (by simp [h])
        · exact Or.inl h
      · exact Or.inr (by simp [hk])
    · rintro (hk | hk)
      · exact Or.inl (timeMapPush_keys_superset (Or.inr hk))
      · simp only [List.map_cons, List.mem_cons] at hk
        rcases hk with rfl | h
        · exact Or.inl (timeMapPush_keys_superset (Or.inl rfl))
        · exact Or.inr (by simpa using h)

/-- Folding nonempty event lists over the empty time map yields a map whose
head entry carries the minimal start time and, in order, the ids of the
events starting there. -/
theorem tmFold_head_min (evs : List Event) (hne : evs ≠ []) :
    ∃ t₀ ids₀, (tmFold evs []).head? = some (t₀, ids₀) ∧
      t₀ ∈ evs.map Event.start ∧ (∀ s ∈ evs.map Event.start, t₀ ≤ s) ∧
      ids₀ = (evs.filter (fun ev => ev.start == t₀)).map Event.id := by
  have hsorted : tmSorted (tmFold evs []) :=
    tmFold_sorted evs (by simp [tmSorted])
  obtain ⟨ev₀, hev₀⟩ : ∃ ev, ev ∈ evs := by
    cases evs with
    | nil => exact absurd rfl hne
    | cons a l => exact ⟨a, List.mem_cons_self a l⟩
  have hk : ev₀.start ∈ (tmFold evs []).map Prod.fst :=
    (tmFold_keys evs [] ev₀.start).mpr
      (Or.inr (List.mem_map_of_mem Event.start hev₀))
  cases hfold : tmFold evs [] with
  | nil => rw [hfold] at hk; cases hk
  | cons hd tl =>
    obtain ⟨t₀, ids₀⟩ := hd
    have hdlt := (List.pairwise_cons.mp (hfold ▸ hsorted)).1
    refine ⟨t₀, ids₀, by simp, ?_, ?_, ?_⟩
    · have : t₀ ∈ (tmFold evs []).map Prod.fst := by
        rw [hfold]
        simp
      rcases (tmFold_keys evs [] t₀).mp this with h | h
      · simp at h
      · exact h
    · intro s hs
      have : s ∈ (tmFold evs []).map Prod.fst :=
        (tmFold_keys evs [] s).mpr (Or.inr hs)
      rw [hfold] at this
      simp only [List.map_cons, List.mem_cons] at this
      rcases this with rfl | hmem
      · exact le_refl _
      · rcases List.mem_map.mp hmem with ⟨q, hq, rfl⟩
        exact le_of_lt (hdlt q hq)
    · have hv : valueAt (tmFold evs []) t₀ =
          (evs.filter (fun ev => ev.start == t₀)).map Event.id := by
        rw [tmFold_valueAt evs (by simp [tmSorted]) t₀]
        simp [valueAt]
      rw [hfold] at hv
      have := hv.symm
      simpa [valueAt, List.find?_cons] using this.symm

/-- The time map the conversion produces is the fold of the pushes over the
realized events. -/
theorem fromModel_time_map (m : model.Schedule) :
    (Schedule.fromModel m).time_map = tmFold (realizedEvents m) [] := by
  have key : ∀ (l : List model.Event) (acc : Schedule),
      (l.foldl convStep acc).time_map =
        tmFold (l.map (fun mev => (realize_event mev).1)) acc.time_map := by
    intro l
    induction l with
    | nil => intro acc; rfl
    | cons mev rest ih =>
      intro acc
      rw [List.foldl_cons, ih]
      rfl
  exact key m.allEvents _

/-- The event map the conversion produces: the realized events as pairs, most
recent first. -/
theorem fromModel_events (m : model.Schedule) :
    (Schedule.fromModel m).events =
      ((realizedEvents m).map (fun ev => (ev.id, ev))).reverse := by
  have key : ∀ (l : List model.Event) (acc : Schedule),
      (l.foldl convStep acc).events =
        ((l.map (fun mev => (realize_event mev).1)).map
          (fun ev => (ev.id, ev))).reverse ++ acc.events := by
    intro l
    induction l with
    | nil => intro acc; simp
    | cons mev rest ih =>
      intro acc
      rw [List.foldl_cons, ih]
      simp [convStep]
  have := key m.allEvents { events := [], persons := [], time_map := [] }
  simpa [Schedule.fromModel, realizedEvents] using this

/-- With globally distinct ids, looking up a realized event's id in the
converted schedule returns exactly that event. -/
theorem fromModel_getEvent (m : model.Schedule)
    (hnodup : ((realizedEvents m).map Event.id).Nodup)
    {ev : Event} (hev : ev ∈ realizedEvents m) :
    (Schedule.fromModel m).getEvent ev.id = some ev := by
  unfold Schedule.getEvent
  rw [fromModel_events]
  have hmem : (ev.id, ev) ∈
      ((realizedEvents m).map (fun e => (e.id, e))).reverse := by
    simp only [List.mem_reverse, List.mem_map]
    exact ⟨ev, hev, rfl⟩
  have hkeys : ((((realizedEvents m).map (fun e => (e.id, e))).reverse).map
      Prod.fst).Nodup := by
    rw [List.map_reverse, List.nodup_reverse, List.map_map]
    simpa [Function.comp] using hnodup
  have := find?_assoc_of_nodup hkeys (x := (ev.id, ev)) hmem
  rw [this]
  rfl

/-- Central characterization of `Schedule::first` on converted schedules:
`some none` (Rust `None`) for zero events, otherwise the first realized event
whose start is minimal. -/
theorem fromModel_first_eq (m : model.Schedule)
    (hnodup : ((realizedEvents m).map Event.id).Nodup) :
    (realizedEvents m = [] → (Schedule.fromModel m).first = some none) ∧
    (realizedEvents m ≠ [] →
      (Schedule.fromModel m).first =
        some ((realizedEvents m).find?
          (fun ev => (realizedEvents m).all
            (fun ev' => decide (ev.start ≤ ev'.start))))) := by
  constructor
  · intro h
    unfold Schedule.first
    rw [fromModel_time_map, h]
    rfl
  · intro hne
    obtain ⟨t₀, ids₀, hhead, ht₀mem, ht₀min, hids⟩ :=
      tmFold_head_min (realizedEvents m) hne
    unfold Schedule.first
    rw [fromModel_time_map, hhead]
    have hfilter_ne :
        (realizedEvents m).filter (fun ev => ev.start == t₀) ≠ [] := by
      rcases List.mem_map.mp ht₀mem with ⟨ev, hev, hevt⟩
      intro hnil
      have : ev ∈ (realizedEvents m).filter (fun ev => ev.start == t₀) :=
        List.mem_filter.mpr ⟨hev, by simp [hevt]⟩
      rw [hnil] at this
      cases this
    cases hf : (realizedEvents m).filter (fun ev => ev.start == t₀) with
    | nil => exact absurd hf hfilter_ne
    | cons e₀ tlf =>
      have he₀mem : e₀ ∈ realizedEvents m :=
        (List.mem_filter.mp (hf ▸ List.mem_cons_self e₀ tlf)).1
      rw [hids, hf]
      simp only [List.map_cons, List.head?_cons]
      rw [fromModel_getEvent m hnodup he₀mem]
      have hpred : ∀ ev ∈ realizedEvents m,
          ((realizedEvents m).all (fun ev' => decide (ev.start ≤ ev'.start))) =
            (ev.start == t₀) := by
        intro ev hev
        by_cases hmin : ev.start = t₀
        · have hall : ((realizedEvents m).all
              (fun ev' => decide (ev.start ≤ ev'.start))) = true := by
            simp only [List.all_eq_true, decide_eq_true_eq]
            intro ev' hev'
            exact hmin ▸ ht₀min ev'.start (List.mem_map_of_mem Event.start hev')
          have hbeq : (ev.start == t₀) = true := by simpa using hmin
          rw [hall, hbeq]
        · have hgt : ¬ ∀ ev' ∈ realizedEvents m, ev.start ≤ ev'.start := by
            intro hall
            rcases List.mem_map.mp ht₀mem with ⟨ev'', hev'', hevt⟩
            have h1 : ev.start ≤ t₀ := hevt ▸ hall ev'' hev''
            have h2 : t₀ ≤ ev.start :=
              ht₀min ev.start (List.mem_map_of_mem Event.start hev)
            exact hmin (le_antisymm h1 h2)
          have h1 : ((realizedEvents m).all
              (fun ev' => decide (ev.start ≤ ev'.start))) = false := by
            rcases Bool.eq_false_or_eq_true ((realizedEvents m).all
              (fun ev' => decide (ev.start ≤ ev'.start))) with h | h
            · exact absurd (by simpa [List.all_eq_true] using h) hgt
            · exact h
          have h2 : (ev.start == t₀) = false := by
            simpa using hmin
          rw [h1, h2]
      rw [find?_congr_mem _ hpred, ← head?_filter_eq_find?, hf]
      rfl

/-! ## The conversion invariant (C10) and `first` (C8, C9) -/

/-- The fields the conversion step produces. -/
theorem convStep_fields (acc : Schedule) (mev : model.Event) :
    (convStep acc mev).time_map =
      timeMapPush acc.time_map (realize_event mev).1.start
        (realize_event mev).1.id ∧
    (convStep acc mev).events =
      ((realize_event mev).1.id, (realize_event mev).1) :: acc.events := by
  constructor <;> simp [convStep]

/-- `getEvent` succeeds exactly when the key lookup succeeds. -/
theorem getEvent_isSome_iff (s : Schedule) (id : Nat) :
    (s.getEvent id).isSome = (s.events.find? (fun p => p.1 == id)).isSome := by
  unfold Schedule.getEvent
  cases s.events.find? (fun p => p.1 == id) <;> rfl

/-- A successful event lookup survives the conversion step. -/
theorem getEvent_convStep_isSome {acc : Schedule} {mev : model.Event}
    {id : Nat} (h : (acc.getEvent id).isSome = true) :
    ((convStep acc mev).getEvent id).isSome = true := by
  rw [getEvent_isSome_iff] at h ⊢
  rw [(convStep_fields acc mev).2]
  exact find?_isSome_cons _ h

/-- The conversion step's own event resolves in the stepped schedule. -/
theorem getEvent_convStep_self (acc : Schedule) (mev : model.Event) :
    ((convStep acc mev).getEvent (realize_event mev).1.id).isSome = true := by
  rw [getEvent_isSome_iff, (convStep_fields acc mev).2]
  simp [List.find?_cons]

/-- The invariant C10 carried through the conversion fold. -/
theorem foldl_convStep_inv (l : List model.Event) (acc : Schedule)
    (hacc : ∀ t ids, (t, ids) ∈ acc.time_map →
      ids ≠ [] ∧ ∀ id ∈ ids, (acc.getEvent id).isSome = true) :
    ∀ t ids, (t, ids) ∈ (l.foldl convStep acc).time_map →
      ids ≠ [] ∧ ∀ id ∈ ids, ((l.foldl convStep acc).getEvent id).isSome = true := by
  induction l generalizing acc with
  | nil => exact hacc
  | cons mev rest ih =>
    rw [List.foldl_cons]
    apply ih
    intro t ids hmem
    rw [(convStep_fields acc mev).1] at hmem
    rcases timeMapPush_mem hmem with hold | hnew | ⟨ids₀, hmem₀, happ⟩
    · obtain ⟨hne, hres⟩ := hacc t ids hold
      exact ⟨hne, fun id hid => getEvent_convStep_isSome (hres id hid)⟩
    · have hnew' : ids = [(realize_event mev).1.id] := hnew
      refine ⟨by simp [hnew'], ?_⟩
      intro id hid
      rw [hnew'] at hid
      rcases List.mem_singleton.mp hid with rfl
      exact getEvent_convStep_self acc mev
    · have hmem₀' : (t, ids₀) ∈ acc.time_map := hmem₀
      have happ' : ids = ids₀ ++ [(realize_event mev).1.id] := happ
      obtain ⟨hne₀, hres₀⟩ := hacc t ids₀ hmem₀'
      refine ⟨by simp [happ'], ?_⟩
      intro id hid
      rw [happ'] at hid
      rcases List.mem_append.mp hid with h | h
      · exact getEvent_convStep_isSome (hres₀ id h)
      · rcases List.mem_singleton.mp h with rfl
        exact getEvent_convStep_self acc mev

/-- C10: in every converted schedule, every time-map value list is non-empty
and every listed id is a key of the event map; consequently `first`'s
internal `expect`s cannot fire (`first` never panics, i.e. is never `none` in
the model), and `len - 1` on a selected row's list cannot underflow. -/
theorem C10_converted_time_map_consistent (m : model.Schedule) :
    (∀ t ids, (t, ids) ∈ (Schedule.fromModel m).time_map →
      ids ≠ [] ∧
        ∀ id ∈ ids, ((Schedule.fromModel m).getEvent id).isSome = true) ∧
    (Schedule.fromModel m).first ≠ none := by
  have hinv : ∀ t ids, (t, ids) ∈ (Schedule.fromModel m).time_map →
      ids ≠ [] ∧
        ∀ id ∈ ids, ((Schedule.fromModel m).getEvent id).isSome = true :=
    foldl_convStep_inv m.allEvents _ (fun t ids h => by cases h)
  refine ⟨hinv, ?_⟩
  intro hnone
  unfold Schedule.first at hnone
  cases htm : (Schedule.fromModel m).time_map with
  | nil => rw [htm] at hnone; cases hnone
  | cons hd tl =>
    obtain ⟨t, ids⟩ := hd
    obtain ⟨hne, hres⟩ := hinv t ids (htm ▸ List.mem_cons_self _ _)
    rw [htm] at hnone
    cases ids with
    | nil => exact hne rfl
    | cons i it =>
      have := hres i (List.mem_cons_self i it)
      rcases Option.isSome_iff_exists.mp this with ⟨ev, hev⟩
      rw [List.head?_cons] at hnone
      simp only [List.head?_cons] at hnone
      rw [hev] at hnone
      cases hnone

/-- Witness for C10 at a concrete one-event import. -/
theorem C10_converted_time_map_consistent_witness :
    ((0, [1]) ∈ (Schedule.fromModel C10model).time_map) ∧
    ([1] ≠ [] ∧
      ∀ id ∈ [1], ((Schedule.fromModel C10model).getEvent id).isSome = true) ∧
    (Schedule.fromModel C10model).first ≠ none :=
  ⟨by decide, (C10_converted_time_map_consistent C10model).1 0 [1] (by decide),
    (C10_converted_time_map_consistent C10model).2⟩

/-- C8: for a converted schedule with globally distinct event ids, `first`
returns Rust `None` when no event was imported, and otherwise the first
realized event (in time-map insertion order, which is conversion order)
whose start is minimal among all stored starts. -/
theorem C8_first_returns_min_start (m : model.Schedule)
    (hnodup : ((realizedEvents m).map Event.id).Nodup) :
    (realizedEvents m = [] → (Schedule.fromModel m).first = some none) ∧
    (realizedEvents m ≠ [] →
      (Schedule.fromModel m).first =
        some ((realizedEvents m).find?
          (fun ev => (realizedEvents m).all
            (fun ev' => decide (ev.start ≤ ev'.start))))) :=
  fromModel_first_eq m hnodup

/-- Witness for C8 at `C8model` (starts `100, 50, 50`: the winner is the
first event with start `50`, guid `5`). -/
theorem C8_first_returns_min_start_witness :
    (((realizedEvents C8model).map Event.id).Nodup) ∧
    (realizedEvents C8model ≠ []) ∧
    (Schedule.fromModel C8model).first =
      some ((realizedEvents C8model).find?
        (fun ev => (realizedEvents C8model).all
          (fun ev' => decide (ev.start ≤ ev'.start)))) ∧
    (Schedule.fromModel C8model).first = some (some ⟨5, 50, 1800, "b", []⟩) :=
  ⟨by decide, by decide,
    (C8_first_returns_min_start C8model (by decide)).2 (by decide), by decide⟩

/-- C9: constructing the application state from an import that decodes to
zero events returns the described error value (no panic); on success the
initial state is `Grid` mode, the selection at the earliest event's
coordinate (its start, column `0`), and both scroll states at their initial
values. -/
theorem C9_initial_state (m : model.Schedule)
    (hnodup : ((realizedEvents m).map Event.id).Nodup) :
    (m.allEvents = [] →
      State.new m = some (.error "schedule is empty, nothing to display")) ∧
    (∀ e₀, (realizedEvents m).find?
        (fun ev => (realizedEvents m).all
          (fun ev' => decide (ev.start ≤ ev'.start))) = some e₀ →
      State.new m = some (.ok
        { schedule := Schedule.fromModel m
          mode := .Grid
          selection := ⟨e₀.start, 0⟩
          grid_state := ⟨e₀.start⟩
          single_state := ⟨0⟩ })) := by
  constructor
  · intro h
    have hre : realizedEvents m = [] := by simp [realizedEvents, h]
    simp only [State.new]
    rw [(fromModel_first_eq m hnodup).1 hre]
  · intro e₀ hfind
    have hne : realizedEvents m ≠ [] := by
      intro h
      rw [h] at hfind
      cases hfind
    simp only [State.new]
    rw [(fromModel_first_eq m hnodup).2 hne, hfind]

/-- Witness for C9: the empty import fails with the described error, the
one-event import (guid `1`, start `42`) succeeds with the documented initial
state. -/
theorem C9_initial_state_witness :
    (State.new C9emptyModel =
      some (.error "schedule is empty, nothing to display")) ∧
    (State.new C9model = some (.ok
      { schedule := Schedule.fromModel C9model
        mode := .Grid
        selection := ⟨(42 : Int), 0⟩
        grid_state := ⟨(42 : Int)⟩
        single_state := ⟨0⟩ })) :=
  ⟨(C9_initial_state C9emptyModel (by decide)).1 rfl,
    (C9_initial_state C9model (by decide)).2 ⟨1, 42, 3600, "t", []⟩ (by decide)⟩

/-! ## Grid sweep lemmas (C1, C2) -/

/-- Resolvable id lists resolve successfully. -/
theorem resolveItems_some {s : Schedule} {ids : List Nat}
    (h : idsResolve s ids) :
    ∃ items, resolveItems s ids = some items := by
  induction ids with
  | nil => exact ⟨[], rfl⟩
  | cons id ids ih =>
    obtain ⟨ev, hev⟩ : ∃ ev, s.getEvent id = some ev := by
      have hh := h id (List.mem_cons_self id ids)
      cases hg : s.getEvent id with
      | none => rw [hg] at hh; cases hh
      | some ev => exact ⟨ev, rfl⟩
    obtain ⟨items, hitems⟩ := ih (fun i hi => h i (List.mem_cons_of_mem _ hi))
    exact ⟨(ev.id, ev.«end») :: items, by simp [resolveItems, hev, hitems]⟩

/-- The lazily-resolving extension equals resolving everything first and then
running the pure `extend` walk, whenever all resolutions succeed. -/
theorem extendActive_eq_extend {s : Schedule} :
    ∀ (slots : List (Option (Nat × Int))) {ids : List Nat}
      {items : List (Nat × Int)},
      resolveItems s ids = some items →
      extendActive s slots ids = some (SlottedVec.extend slots items) := by
  intro slots
  induction slots with
  | nil => intro ids items h; rfl
  | cons slot rest ih =>
    intro ids items h
    cases slot with
    | some x =>
      simp only [extendActive, SlottedVec.extend, ih h]
      rfl
    | none =>
      cases ids with
      | nil =>
        have hit : items = [] := by
          simpa [resolveItems] using h.symm
        subst hit
        rfl
      | cons id ids' =>
        cases hid : s.getEvent id with
        | none => simp [resolveItems, hid] at h
        | some ev =>
          simp only [resolveItems, hid] at h
          cases hits : resolveItems s ids' with
          | none => rw [hits] at h; simp at h
          | some items' =>
            rw [hits] at h
            cases Option.some.inj h
            simp only [extendActive, hid, SlottedVec.extend, ih hits]
            rfl

/-- Filling a list whose head slot is occupied fills the tail. -/
theorem specFill_cons_some (x : α) (rest : List (Option α))
    (items : List α) :
    specFill (some x :: rest) items = some x :: specFill rest items := by
  induction items generalizing rest with
  | nil => rfl
  | cons i items ih =>
    show specFill (specInsertFirstEmpty (some x :: rest) i) items = _
    simp only [specInsertFirstEmpty]
    rw [show specFill (some x :: specInsertFirstEmpty rest i) items =
      some x :: specFill (specInsertFirstEmpty rest i) items from ih _]
    rfl

/-- Filling the empty slot list is a no-op. -/
theorem specFill_nil (items : List α) :
    specFill ([] : List (Option α)) items = [] := by
  induction items with
  | nil => rfl
  | cons i items ih =>
    show specFill (specInsertFirstEmpty [] i) items = []
    simpa [specInsertFirstEmpty] using ih

/-- The implementation's slot walk (`Extend for SlottedVec`) computes exactly
the spec's per-event first-fit fold. -/
theorem extend_eq_specFill :
    ∀ (slots : List (Option α)) (items : List α),
      SlottedVec.extend slots items = specFill slots items := by
  intro slots
  induction slots with
  | nil => intro items; rw [specFill_nil]; rfl
  | cons slot rest ih =>
    intro items
    cases slot with
    | some x => rw [specFill_cons_some]; simp [SlottedVec.extend, ih]
    | none =>
      cases items with
      | nil => rfl
      | cons i items' =>
        show SlottedVec.extend (none :: rest) (i :: items') =
          specFill (specInsertFirstEmpty (none :: rest) i) items'
        simp only [SlottedVec.extend, specInsertFirstEmpty]
        rw [specFill_cons_some]
        simp [ih]

/-- Mapping pointwise-equal functions gives equal lists. -/
theorem map_congr_fun {f g : α → β} (l : List α) (h : ∀ x, f x = g x) :
    l.map f = l.map g := by
  induction l with
  | nil => rfl
  | cons a l ih => simp [h a, ih]

/-- The implementation's cull predicate computes exactly the spec's
eviction. -/
theorem retain_eq_specEvict (now : Int)
    (slots : List (Option (Nat × Int))) :
    SlottedVec.retain (fun p => decide (now < p.2)) slots =
      specEvict now slots := by
  apply map_congr_fun
  intro slot
  cases slot with
  | none => rfl
  | some p =>
    obtain ⟨e, en⟩ := p
    by_cases h : now < en
    · simp [h, not_le.mpr h]
    · simp [h, not_lt.mp h]

/-- The implementation's sweep equals the spec's sweep on resolvable
entries. -/
theorem go_eq_specSweepGo (s : Schedule) :
    ∀ (entries : List (Int × List Nat)) (slots : List (Option (Nat × Int))),
      (∀ e ∈ entries, idsResolve s e.2) →
      ScheduleGrid.go s slots entries = specSweepGo s slots entries := by
  intro entries
  induction entries with
  | nil => intro slots _; rfl
  | cons entry rest ih =>
    obtain ⟨now, starting⟩ := entry
    intro slots hres
    obtain ⟨items, hitems⟩ :=
      resolveItems_some (hres _ (List.mem_cons_self _ _))
    simp only [ScheduleGrid.go, specSweepGo, hitems]
    rw [retain_eq_specEvict, extendActive_eq_extend _ hitems,
      extend_eq_specFill]
    simp [ih _ (fun e he => hres e (List.mem_cons_of_mem _ he))]

/-- An id is in a snapshot row iff some `(id, end)` pair occupies a slot. -/
theorem mem_snap {slots : List (Option (Nat × Int))} {e : Nat} :
    some e ∈ slots.map (Option.map Prod.fst) ↔
      ∃ en, some (e, en) ∈ slots := by
  constructor
  · intro h
    rcases List.mem_map.mp h with ⟨o, ho, heq⟩
    cases o with
    | none => cases heq
    | some p =>
      obtain ⟨e', en⟩ := p
      cases Option.some.inj heq
      exact ⟨en, ho⟩
  · rintro ⟨en, h⟩
    exact List.mem_map.mpr ⟨some (e, en), h, rfl⟩

/-- Whatever survives `retain` was present and satisfies the predicate. -/
theorem retain_mem {p : α → Bool} {slots : List (Option α)} {x : α}
    (h : some x ∈ SlottedVec.retain p slots) :
    some x ∈ slots ∧ p x = true := by
  unfold SlottedVec.retain at h
  rcases List.mem_map.mp h with ⟨o, ho, heq⟩
  cases o with
  | none => cases heq
  | some y =>
    by_cases hp : p y = true
    · simp only [hp, if_true] at heq
      cases Option.some.inj heq
      exact ⟨ho, hp⟩
    · simp only [hp, if_false] at heq
      cases heq

/-- A slot whose element passes the predicate is untouched by `retain`. -/
theorem retain_get?_some {p : α → Bool} {slots : List (Option α)} {c : Nat}
    {x : α} (h : slots.get? c = some (some x)) (hp : p x = true) :
    (SlottedVec.retain p slots).get? c = some (some x) := by
  unfold SlottedVec.retain
  rw [List.get?_map, h]
  simp [hp]

/-- `extendActive` never touches an occupied slot. -/
theorem extendActive_get?_preserved {s : Schedule} :
    ∀ (slots : List (Option (Nat × Int))) {ids : List Nat}
      {slots' : List (Option (Nat × Int))},
      extendActive s slots ids = some slots' →
      ∀ {c : Nat} {x : Nat × Int}, slots.get? c = some (some x) →
        slots'.get? c = some (some x) := by
  intro slots
  induction slots with
  | nil =>
    intro ids slots' h c x hc
    cases c <;> cases hc
  | cons slot rest ih =>
    intro ids slots' h c x hc
    cases slot with
    | some y =>
      simp only [extendActive] at h
      cases hrest : extendActive s rest ids with
      | none => rw [hrest] at h; cases h
      | some rest' =>
        rw [hrest] at h
        cases Option.some.inj h
        cases c with
        | zero => exact hc
        | succ c' => exact ih hrest hc
    | none =>
      cases ids with
      | nil =>
        cases Option.some.inj h
        exact hc
      | cons id ids' =>
        simp only [extendActive] at h
        cases hid : s.getEvent id with
        | none => rw [hid] at h; cases h
        | some ev =>
          rw [hid] at h
          cases hrest : extendActive s rest ids' with
          | none => rw [hrest] at h; cases h
          | some rest' =>
            rw [hrest] at h
            cases Option.some.inj h
            cases c with
            | zero => cases hc
            | succ c' => exact ih hrest hc

/-- Every pair present after `extendActive` was present before or stems from
a resolved id of the inserted list. -/
theorem extendActive_mem {s : Schedule} :
    ∀ (slots : List (Option (Nat × Int))) {ids : List Nat}
      {slots' : List (Option (Nat × Int))},
      extendActive s slots ids = some slots' →
      ∀ {x : Nat × Int}, some x ∈ slots' →
        some x ∈ slots ∨
          ∃ id ∈ ids, ∃ ev, s.getEvent id = some ev ∧
            x = (ev.id, ev.«end») := by
  intro slots
  induction slots with
  | nil =>
    intro ids slots' h x hx
    cases Option.some.inj h
    cases hx
  | cons slot rest ih =>
    intro ids slots' h x hx
    cases slot with
    | some y =>
      simp only [extendActive] at h
      cases hrest : extendActive s rest ids with
      | none => rw [hrest] at h; cases h
      | some rest' =>
        rw [hrest] at h
        cases Option.some.inj h
        rcases List.mem_cons.mp hx with heq | hx'
        · exact Or.inl (heq ▸ List.mem_cons_self _ _)
        · rcases ih hrest hx' with h' | h' 
          · exact Or.inl (List.mem_cons_of_mem _ h')
          · exact Or.inr h'
    | none =>
      cases ids with
      | nil =>
        cases Option.some.inj h
        rcases List.mem_cons.mp hx with heq | hx'
        · cases heq
        · exact Or.inl (List.mem_cons_of_mem _ hx')
      | cons id ids' =>
        simp only [extendActive] at h
        cases hid : s.getEvent id with
        | none => rw [hid] at h; cases h
        | some ev =>
          rw [hid] at h
          cases hrest : extendActive s rest ids' with
          | none => rw [hrest] at h; cases h
          | some rest' =>
            rw [hrest] at h
            cases Option.some.inj h
            rcases List.mem_cons.mp hx with heq | hx'
            · exact Or.inr ⟨id, List.mem_cons_self _ _, ev, hid,
                Option.some.inj heq⟩
            · rcases ih hrest hx' with h' | ⟨id', hid', ev', hgev', hx''⟩
              · exact Or.inl (List.mem_cons_of_mem _ h')
              · exact Or.inr ⟨id', List.mem_cons_of_mem _ hid', ev', hgev', hx''⟩

/-- Inversion of one sweep step. -/
theorem go_cons_inv {s : Schedule} {now : Int} {starting : List Nat}
    {rest : List (Int × List Nat)} {slots : List (Option (Nat × Int))}
    {g : List (Int × List (Option Nat))}
    (h : ScheduleGrid.go s slots ((now, starting) :: rest) = some g) :
    ∃ active' tl,
      extendActive s (SlottedVec.retain (fun p => decide (now < p.2)) slots)
        starting = some active' ∧
      ScheduleGrid.go s active' rest = some tl ∧
      g = (now, active'.map (Option.map Prod.fst)) :: tl := by
  simp only [ScheduleGrid.go, Option.bind_eq_some] at h
  obtain ⟨active', hext, hmap⟩ := h
  rcases Option.map_eq_some'.mp hmap with ⟨tl, hrest, hg⟩
  exact ⟨active', tl, hext, hrest, hg.symm⟩

/-- The grid rows carry exactly the time map's keys, in order. -/
theorem go_keys {s : Schedule} :
    ∀ (entries : List (Int × List Nat)) {slots g},
      ScheduleGrid.go s slots entries = some g →
      g.map Prod.fst = entries.map Prod.fst := by
  intro entries
  induction entries with
  | nil =>
    intro slots g h
    cases Option.some.inj h
    rfl
  | cons entry rest ih =>
    obtain ⟨now, starting⟩ := entry
    intro slots g h
    obtain ⟨active', tl, hext, hrest, hg⟩ := go_cons_inv h
    subst hg
    simp [ih hrest]

/-- Once an event id is absent from the slots and from all remaining
time-map entries, it never appears in any later grid row. -/
theorem go_absent {s : Schedule} {e : Nat} :
    ∀ (entries : List (Int × List Nat)) {slots g},
      ScheduleGrid.go s slots entries = some g →
      (∀ entry ∈ entries, idsResolve s entry.2) →
      (∀ entry ∈ entries, e ∉ entry.2) →
      (∀ en, some (e, en) ∉ slots) →
      ∀ T row, (T, row) ∈ g → some e ∉ row := by
  intro entries
  induction entries with
  | nil =>
    intro slots g h _ _ _ T row hrow
    cases Option.some.inj h
    cases hrow
  | cons entry rest ih =>
    obtain ⟨now, starting⟩ := entry
    intro slots g h hres hents hslots T row hrow
    obtain ⟨active', tl, hext, hrest, hg⟩ := go_cons_inv h
    subst hg
    have hact : ∀ en, some (e, en) ∉ active' := by
      intro en hmem
      rcases extendActive_mem _ hext hmem with hcul | ⟨id, hid, ev, hgev, hx⟩
      · exact hslots en (retain_mem hcul).1
      · have hide : ev.id = id := by
          have hr := hres _ (List.mem_cons_self _ _) id hid
          rw [hgev] at hr
          exact Option.some.inj hr
        have hei : e = id := by
          have := congrArg Prod.fst hx
          simpa [hide] using this
        exact hents _ (List.mem_cons_self _ _) (hei ▸ hid)
    rcases List.mem_cons.mp hrow with heq | hrow'
    · cases heq
      intro hmemrow
      rcases mem_snap.mp hmemrow with ⟨en, hmem⟩
      exact hact en hmem
    · exact ih hrest (fun x hx => hres _ (List.mem_cons_of_mem _ hx))
        (fun x hx => hents _ (List.mem_cons_of_mem _ hx)) hact T row hrow'

/-- An event pair occupying slot `c`, with a unique stored end time, stays in
slot `c` in every later row strictly before its end time and is absent from
every row at or after it, provided its id never restarts. -/
theorem go_stable {s : Schedule} {e : Nat} {en : Int} :
    ∀ (entries : List (Int × List Nat)) {slots g},
      ScheduleGrid.go s slots entries = some g →
      List.Pairwise (fun a b => a.1 < b.1) entries →
      (∀ entry ∈ entries, idsResolve s entry.2) →
      (∀ entry ∈ entries, e ∉ entry.2) →
      ∀ {c : Nat}, slots.get? c = some (some (e, en)) →
      (∀ en', some (e, en') ∈ slots → en' = en) →
      ∀ T row, (T, row) ∈ g →
        (T < en → row.get? c = some (some e)) ∧
        (en ≤ T → some e ∉ row) := by
  intro entries
  induction entries with
  | nil =>
    intro slots g h _ _ _ c hc hu T row hrow
    cases Option.some.inj h
    cases hrow
  | cons entry rest ih =>
    obtain ⟨now, starting⟩ := entry
    intro slots g h hsort hres hents c hc hu T row hrow
    obtain ⟨active', tl, hext, hrest, hg⟩ := go_cons_inv h
    subst hg
    have henot : e ∉ starting := fun hmem => hents _ (List.mem_cons_self _ _) hmem
    by_cases hlive : now < en
    · have hcul : (SlottedVec.retain (fun p => decide (now < p.2)) slots).get? c =
          some (some (e, en)) := retain_get?_some hc (by simpa using hlive)
      have hact : active'.get? c = some (some (e, en)) :=
        extendActive_get?_preserved _ hext hcul
      have hu' : ∀ en', some (e, en') ∈ active' → en' = en := by
        intro en' hmem
        rcases extendActive_mem _ hext hmem with hcul' | ⟨id, hid, ev, hgev, hx⟩
        · exact hu en' (retain_mem hcul').1
        · have hide : ev.id = id := by
            have hr := hres _ (List.mem_cons_self _ _) id hid
            rw [hgev] at hr
            exact Option.some.inj hr
          have hei : e = id := by
            have := congrArg Prod.fst hx
            simpa [hide] using this
          exact absurd (hei ▸ hid) henot
      rcases List.mem_cons.mp hrow with heq | hrow'
      · cases heq
        constructor
        · intro _
          rw [List.get?_map, hact]
          rfl
        · intro hle
          exact absurd hlive (not_lt.mpr hle)
      · exact ih hrest (List.pairwise_cons.mp hsort).2
          (fun x hx => hres _ (List.mem_cons_of_mem _ hx))
          (fun x hx => hents _ (List.mem_cons_of_mem _ hx)) hact hu' T row hrow'
    · have hgone : ∀ en', some (e, en') ∉ active' := by
        intro en' hmem
        rcases extendActive_mem _ hext hmem with hcul' | ⟨id, hid, ev, hgev, hx⟩
        · obtain ⟨hin, hp⟩ := retain_mem hcul'
          have heq' : en' = en := hu en' hin
          subst heq'
          exact hlive (by simpa using hp)
        · have hide : ev.id = id := by
            have hr := hres _ (List.mem_cons_self _ _) id hid
            rw [hgev] at hr
            exact Option.some.inj hr
          have hei : e = id := by
            have := congrArg Prod.fst hx
            simpa [hide] using this
          exact absurd (hei ▸ hid) henot
      have habs : ∀ T' row', (T', row') ∈ tl → some e ∉ row' :=
        fun T' row' h' => go_absent rest hrest
          (fun x hx => hres _ (List.mem_cons_of_mem _ hx))
          (fun x hx => hents _ (List.mem_cons_of_mem _ hx)) hgone T' row' h'
      have hennow : en ≤ now := not_lt.mp hlive
      rcases List.mem_cons.mp hrow with heq | hrow'
      · cases heq
        constructor
        · intro hTen
          exact absurd hTen (not_lt.mpr hennow)
        · intro _ hmemrow
          rcases mem_snap.mp hmemrow with ⟨en', hmem⟩
          exact hgone en' hmem
      · constructor
        · intro hTen
          have hTkeys : T ∈ tl.map Prod.fst :=
            List.mem_map_of_mem Prod.fst hrow'
          rw [go_keys rest hrest] at hTkeys
          rcases List.mem_map.mp hTkeys with ⟨q, hq, hq1⟩
          have hnowT : now < T := hq1 ▸ (List.pairwise_cons.mp hsort).1 q hq
          omega
        · intro _
          exact habs T row hrow'

/-- Main column-stability statement over the sweep, generalized over the
starting slot state. -/
theorem go_column_stability {s : Schedule} :
    ∀ (entries : List (Int × List Nat)) {slots g},
      ScheduleGrid.go s slots entries = some g →
      List.Pairwise (fun a b => a.1 < b.1) entries →
      (∀ entry ∈ entries, idsResolve s entry.2) →
      ((entries.map Prod.snd).flatten).Nodup →
      (∀ x en, some (x, en) ∈ slots → en = endOf s x) →
      (∀ x en, some (x, en) ∈ slots → ∀ entry ∈ entries, x ∉ entry.2) →
      ∀ T row, (T, row) ∈ g → ∀ c e, row.get? c = some (some e) →
        ∀ T' row', (T', row') ∈ g →
          (T < T' → T' < endOf s e → row'.get? c = some (some e)) ∧
          (T < T' → endOf s e ≤ T' → some e ∉ row') := by
  intro entries
  induction entries with
  | nil =>
    intro slots g h _ _ _ _ _ T row hrow
    cases Option.some.inj h
    cases hrow
  | cons entry rest ih =>
    obtain ⟨now, starting⟩ := entry
    intro slots g h hsort hres hnodup hInv hsrc T row hrow c e hc T' row' hrow'
    obtain ⟨active', tl, hext, hrest, hg⟩ := go_cons_inv h
    subst hg
    have hdisj : ∀ x, x ∈ starting → ∀ entry ∈ rest, x ∉ entry.2 := by
      intro x hx entry hentry hx'
      have hflat : ((((now, starting) :: rest).map Prod.snd).flatten) =
          starting ++ ((rest.map Prod.snd).flatten) := by simp
      rw [hflat] at hnodup
      have hdj := (List.nodup_append.mp hnodup).2.2
      exact hdj hx (List.mem_flatten.mpr
        ⟨entry.2, List.mem_map_of_mem Prod.snd hentry, hx'⟩)
    have hInv' : ∀ x en, some (x, en) ∈ active' → en = endOf s x := by
      intro x en hmem
      rcases extendActive_mem _ hext hmem with hcul | ⟨id, hid, ev, hgev, hx⟩
      · exact hInv x en (retain_mem hcul).1
      · have hide : ev.id = id := by
          have hr := hres _ (List.mem_cons_self _ _) id hid
          rw [hgev] at hr
          exact Option.some.inj hr
        have hx1 : x = ev.id := congrArg Prod.fst hx
        have hx2 : en = ev.«end» := congrArg Prod.snd hx
        rw [hx1, hx2, endOf, hide, hgev]
    have hsrc' : ∀ x en, some (x, en) ∈ active' → ∀ entry ∈ rest, x ∉ entry.2 := by
      intro x en hmem
      rcases extendActive_mem _ hext hmem with hcul | ⟨id, hid, ev, hgev, hx⟩
      · exact fun entry hentry =>
          hsrc x en (retain_mem hcul).1 entry (List.mem_cons_of_mem _ hentry)
      · have hide : ev.id = id := by
          have hr := hres _ (List.mem_cons_self _ _) id hid
          rw [hgev] at hr
          exact Option.some.inj hr
        have hx1 : x = id := by
          have := congrArg Prod.fst hx
          simpa [hide] using this
        exact hx1 ▸ hdisj id hid
    rcases List.mem_cons.mp hrow with heq | hrow_tl
    · -- the source row is the head snapshot
      cases heq
      have hcget : ∃ en, active'.get? c = some (some (e, en)) := by
        rw [List.get?_map] at hc
        cases hag : active'.get? c with
        | none => rw [hag] at hc; cases hc
        | some o =>
          rw [hag] at hc
          cases o with
          | none => cases Option.some.inj hc
          | some p =>
            obtain ⟨e', en⟩ := p
            have : e' = e := by
              have := Option.some.inj hc
              simpa using this
            exact ⟨en, by rw [this]⟩
      obtain ⟨en, hag⟩ := hcget
      have hmem_ag : some (e, en) ∈ active' := List.get?_mem hag
      have hen : en = endOf s e := hInv' e en hmem_ag
      have hents' : ∀ entry ∈ rest, e ∉ entry.2 := hsrc' e en hmem_ag
      have hu : ∀ en', some (e, en') ∈ active' → en' = en := by
        intro en' hmem'
        rw [hInv' e en' hmem', hen]
      rcases List.mem_cons.mp hrow' with heq' | hrow'_tl
      · -- target is the same (head) row: T < T' is impossible
        have hT' : T' = now := congrArg Prod.fst heq'
        constructor
        · intro hTT'
          rw [hT'] at hTT'
          exact absurd hTT' (lt_irrefl now)
        · intro hTT'
          rw [hT'] at hTT'
          exact absurd hTT' (lt_irrefl now)
      · have := go_stable rest hrest (List.pairwise_cons.mp hsort).2
          (fun x hx => hres _ (List.mem_cons_of_mem _ hx)) hents' hag hu
          T' row' hrow'_tl
        constructor
        · intro _ hT'end
          exact this.1 (hen ▸ hT'end)
        · intro _ hendT'
          exact this.2 (hen ▸ hendT')
    · -- the source row lies in the tail
      have hkeys : T ∈ tl.map Prod.fst := List.mem_map_of_mem Prod.fst hrow_tl
      rw [go_keys rest hrest] at hkeys
      rcases List.mem_map.mp hkeys with ⟨q, hq, hq1⟩
      have hnowT : now < T := hq1 ▸ (List.pairwise_cons.mp hsort).1 q hq
      have hnodup' : ((rest.map Prod.snd).flatten).Nodup := by
        have hflat : ((((now, starting) :: rest).map Prod.snd).flatten) =
            starting ++ ((rest.map Prod.snd).flatten) := by simp
        rw [hflat] at hnodup
        exact (List.nodup_append.mp hnodup).2.1
      rcases List.mem_cons.mp hrow' with heq' | hrow'_tl
      · -- target is the head row, strictly earlier than the source row
        have hT' : T' = now := congrArg Prod.fst heq'
        constructor
        · intro hTT'
          rw [hT'] at hTT'
          omega
        · intro hTT'
          rw [hT'] at hTT'
          omega
      · exact ih hrest (List.pairwise_cons.mp hsort).2
          (fun x hx => hres _ (List.mem_cons_of_mem _ hx)) hnodup' hInv' hsrc'
          T row hrow_tl c e hc T' row' hrow'_tl

/-- An event dropped from its start row (capacity exhausted) never appears in
that row or any later row. -/
theorem go_dropped {s : Schedule} {e : Nat} :
    ∀ (entries : List (Int × List Nat)) {slots g},
      ScheduleGrid.go s slots entries = some g →
      List.Pairwise (fun a b => a.1 < b.1) entries →
      (∀ entry ∈ entries, idsResolve s entry.2) →
      ((entries.map Prod.snd).flatten).Nodup →
      ∀ T ids, (T, ids) ∈ entries → e ∈ ids →
        ∀ row, (T, row) ∈ g → some e ∉ row →
          ∀ T' row', (T', row') ∈ g → T ≤ T' → some e ∉ row' := by
  intro entries
  induction entries with
  | nil =>
    intro slots g h _ _ _ T ids hT
    cases hT
  | cons entry rest ih =>
    obtain ⟨now, starting⟩ := entry
    intro slots g h hsort hres hnodup T ids hTmem hei row hrowmem habs
      T' row' hrow'mem hle
    obtain ⟨active', tl, hext, hrest, hg⟩ := go_cons_inv h
    subst hg
    have hflat : ((((now, starting) :: rest).map Prod.snd).flatten) =
        starting ++ ((rest.map Prod.snd).flatten) := by simp
    rw [hflat] at hnodup
    have htl_keys : ∀ t r, (t, r) ∈ tl → now < t := by
      intro t r htr
      have hk : t ∈ tl.map Prod.fst := List.mem_map_of_mem Prod.fst htr
      rw [go_keys rest hrest] at hk
      rcases List.mem_map.mp hk with ⟨q, hq, hq1⟩
      exact hq1 ▸ (List.pairwise_cons.mp hsort).1 q hq
    rcases List.mem_cons.mp hTmem with heqT | hTmem'
    · -- the drop happens at the head entry
      have hTeq : T = now := congrArg Prod.fst heqT
      have hidseq : ids = starting := congrArg Prod.snd heqT
      -- the (unique) row keyed `T` is the head snapshot
      have hrow_head : row = active'.map (Option.map Prod.fst) := by
        rcases List.mem_cons.mp hrowmem with heq | hmem'
        · exact congrArg Prod.snd heq
        · have := htl_keys T row hmem'
          omega
      have hgone : ∀ en, some (e, en) ∉ active' := by
        intro en hmem
        apply habs
        rw [hrow_head]
        exact mem_snap.mpr ⟨en, hmem⟩
      have hents' : ∀ entry ∈ rest, e ∉ entry.2 := by
        intro entry hentry hx'
        have hdj := (List.nodup_append.mp hnodup).2.2
        exact hdj (hidseq ▸ hei) (List.mem_flatten.mpr
          ⟨entry.2, List.mem_map_of_mem Prod.snd hentry, hx'⟩)
      rcases List.mem_cons.mp hrow'mem with heq' | hmem'
      · have : row' = active'.map (Option.map Prod.fst) := congrArg Prod.snd heq'
        rw [this, ← hrow_head]
        exact habs
      · exact go_absent rest hrest
          (fun x hx => hres _ (List.mem_cons_of_mem _ hx)) hents' hgone
          T' row' hmem'
    · -- the drop happens in the tail
      have hnowT : now < T := by
        have hk : T ∈ rest.map Prod.fst :=
          List.mem_map_of_mem Prod.fst hTmem'
        rcases List.mem_map.mp hk with ⟨q, hq, hq1⟩
        exact hq1 ▸ (List.pairwise_cons.mp hsort).1 q hq
      have hrow_tl : (T, row) ∈ tl := by
        rcases List.mem_cons.mp hrowmem with heq | hmem'
        · have : T = now := congrArg Prod.fst heq
          omega
        · exact hmem'
      rcases List.mem_cons.mp hrow'mem with heq' | hmem'
      · have : T' = now := congrArg Prod.fst heq'
        omega
      · exact ih hrest (List.pairwise_cons.mp hsort).2
          (fun x hx => hres _ (List.mem_cons_of_mem _ hx))
          (List.nodup_append.mp hnodup).2.1 T ids hTmem' hei row hrow_tl habs
          T' row' hmem' hle

/-- Every time-map entry of a well-formed schedule has resolvable ids. -/
theorem WF_entry_resolve {s : Schedule} (hwf : s.WF) :
    ∀ entry ∈ s.time_map, idsResolve s entry.2 := by
  intro entry hentry id hid
  apply hwf.2.1
  exact List.mem_flatten.mpr
    ⟨entry.2, List.mem_map_of_mem Prod.snd hentry, hid⟩

/-- C1: the sweep places each timestamp's newly-starting events, in insertion
order, into the first empty slot of the width-7 slot array, silently dropping
an event when all slots are occupied (proved as: the implementation's sweep
equals the specification's evict/first-fit/snapshot sweep), and an event that
received no slot at its start timestamp never appears in its row or in any
grid row at a later timestamp. -/
theorem C1_grid_first_fit_and_dropped_stay_dropped (s : Schedule)
    (hwf : s.WF) :
    ScheduleGrid.new s = specSweep s ∧
    (∀ g, ScheduleGrid.new s = some g →
      ∀ T ids, (T, ids) ∈ s.time_map → ∀ e, e ∈ ids →
        ∀ row, (T, row) ∈ g → some e ∉ row →
          ∀ T' row', (T', row') ∈ g → T ≤ T' → some e ∉ row') := by
  constructor
  · exact go_eq_specSweepGo s s.time_map _ (WF_entry_resolve hwf)
  · intro g hg T ids hT e he row hrow habs T' row' hrow' hle
    exact go_dropped s.time_map hg hwf.1 (WF_entry_resolve hwf) hwf.2.2
      T ids hT he row hrow habs T' row' hrow' hle

/-- Witness for C1: in `C1wsched` (eight simultaneous events, width 7) the
implementation matches the spec sweep and the dropped event `8` is absent
from its row and all (here: all later) rows. -/
theorem C1_grid_first_fit_witness :
    C1wsched.WF ∧
    ScheduleGrid.new C1wsched = specSweep C1wsched ∧
    ScheduleGrid.new C1wsched = some C1wgrid ∧
    (0, [1, 2, 3, 4, 5, 6, 7, 8]) ∈ C1wsched.time_map ∧
    (8 : Nat) ∈ [1, 2, 3, 4, 5, 6, 7, 8] ∧
    (0, C1wrow) ∈ C1wgrid ∧
    some 8 ∉ C1wrow ∧
    some 8 ∉ C1wrow :=
  ⟨by decide,
    (C1_grid_first_fit_and_dropped_stay_dropped C1wsched (by decide)).1,
    by decide, by decide, by decide, by decide, by decide,
    (C1_grid_first_fit_and_dropped_stay_dropped C1wsched (by decide)).2
      C1wgrid (by decide) 0 [1, 2, 3, 4, 5, 6, 7, 8] (by decide) 8 (by decide)
      C1wrow (by decide) (by decide) 0 C1wrow (by decide) (le_refl 0)⟩

/-- C2 (counterexample): a zero-duration event (start `0`, duration `0`, so
`end = 0`) is placed in the grid row at its own start timestamp `0` even
though `end ≤ 0`: eviction happens *before* insertion, so the claim's
unrestricted absence clause ("absent from every grid row at timestamps `T'`
with `end ≤ T'`") is false at `T' = 0`. -/
theorem C2_counterexample_zero_duration_event :
    C2sched.WF ∧
    ScheduleGrid.new C2sched =
      some [(0, [some 1, none, none, none, none, none, none])] ∧
    endOf C2sched 1 ≤ 0 :=
  ⟨by decide, by decide, by decide⟩

/-- C2 (amended): if event `e` occupies slot `c` in the grid row at `T`,
then at every *later* time-map timestamp `T'` (`T < T'`) it still occupies
slot `c` while `T' < end` and is absent from the whole row once
`end ≤ T'` (eviction of slots with stored end-time `≤ T'` happens before
insertion at each timestamp). -/
theorem C2_amended_column_stability (s : Schedule) (hwf : s.WF)
    (g : List (Int × List (Option Nat))) (hg : ScheduleGrid.new s = some g)
    (T : Int) (row : List (Option Nat)) (hrow : (T, row) ∈ g)
    (c : Nat) (e : Nat) (hc : row.get? c = some (some e))
    (T' : Int) (row' : List (Option Nat)) (hrow' : (T', row') ∈ g) :
    (T < T' → T' < endOf s e → row'.get? c = some (some e)) ∧
    (T < T' → endOf s e ≤ T' → some e ∉ row') := by
  refine go_column_stability s.time_map hg hwf.1 (WF_entry_resolve hwf)
    hwf.2.2 ?_ ?_ T row hrow c e hc T' row' hrow'
  · intro x en hmem
    exact absurd (List.eq_of_mem_replicate hmem) (by simp)
  · intro x en hmem
    exact absurd (List.eq_of_mem_replicate hmem) (by simp)

/-- Witness for the amended C2 theorem: in `C2wsched`, event `1` (span
`0..20`) occupies column `0` at `0` and still occupies column `0` at the
later timestamp `10 < 20`. -/
theorem C2_amended_column_stability_witness :
    C2wsched.WF ∧
    ScheduleGrid.new C2wsched = some C2wgrid ∧
    (0, C2wrow0) ∈ C2wgrid ∧
    C2wrow0.get? 0 = some (some 1) ∧
    (10, C2wrow10) ∈ C2wgrid ∧
    (((0 : Int) < 10 → (10 : Int) < endOf C2wsched 1 →
        C2wrow10.get? 0 = some (some 1)) ∧
      ((0 : Int) < 10 → endOf C2wsched 1 ≤ 10 → some 1 ∉ C2wrow10)) :=
  ⟨by decide, by decide, by decide, by decide, by decide,
    C2_amended_column_stability C2wsched (by decide) C2wgrid (by decide)
      0 C2wrow0 (by decide) 0 1 (by decide) 10 C2wrow10 (by decide)⟩

end Inoe
